import Mathlib

/-!
Shallow embedding of src/main.py of the insight_global repository.

The pipeline discovers dataset metadata, filters records by keyword,
plans a download worklist against a sqlite control table, and runs a
download worker per worklist item.  Pure string manipulation is embedded
directly; the sqlite control table is embedded as a list of rows in rowid
(insertion) order, with each query translated from its SQL text; the
external HTTP fetches are parameters (the metadata payload, and a success
flag for the per-item CSV fetch).
-/

namespace InsightGlobal

/-! ### Python string helpers used by convert_to_snake_case -/

/-- The apostrophe character (codepoint 39). -/
def apostrophe : Char := Char.ofNat 39

/-- ASCII whitespace as recognised by Python str.strip: space, tab, newline,
carriage return, vertical tab, form feed. -/
def isPyWs (c : Char) : Bool :=
  decide (c.toNat = 32 ∨ c.toNat = 9 ∨ c.toNat = 10 ∨
    c.toNat = 13 ∨ c.toNat = 11 ∨ c.toNat = 12)

/-- Models the first step of convert_to_snake_case, re.sub of the apostrophe
character to the empty string: remove all apostrophes. -/
def removeApostrophes (l : List Char) : List Char :=
  l.filter (fun c => !(c == apostrophe))

/-- Auxiliary for collapseSpaces; the flag records whether the previous
character was a space (in which case further spaces of the same run are
dropped). -/
def collapseSpacesAux : Bool → List Char → List Char
  | _, [] => []
  | prevSpace, c :: rest =>
    if c == ' ' then
      if prevSpace then collapseSpacesAux true rest
      else ' ' :: collapseSpacesAux true rest
    else c :: collapseSpacesAux false rest

/-- Models re.sub of one-or-more spaces to a single space: replace each
maximal run of spaces by one space. -/
def collapseSpaces (l : List Char) : List Char := collapseSpacesAux false l

/-- Drop trailing characters satisfying isPyWs. -/
def dropTrailingWs (l : List Char) : List Char := (l.reverse.dropWhile isPyWs).reverse

/-- Models Python str.strip (on the ASCII whitespace set): drop leading and
trailing whitespace. -/
def pyStrip (l : List Char) : List Char := dropTrailingWs (l.dropWhile isPyWs)

/-- Models re.sub of space to underscore. -/
def spaceToUnderscore (l : List Char) : List Char :=
  l.map (fun c => if c == ' ' then '_' else c)

/-- Models Python str.lower on the basic latin letters, which is what the
core Char.toLower implements. -/
def pyLower (l : List Char) : List Char := l.map Char.toLower

/-- The five rewriting steps of convert_to_snake_case, at the character-list
level, in source order. -/
def snakeList (l : List Char) : List Char :=
  pyLower (spaceToUnderscore (pyStrip (collapseSpaces (removeApostrophes l))))

/-- Models convert_to_snake_case from src/main.py: remove apostrophes,
collapse runs of spaces, strip, replace spaces by underscores, lowercase. -/
def convert_to_snake_case (val : String) : String := String.mk (snakeList val.data)

/-! ### Metadata records and the keyword filter -/

/-- A distribution entry of a dataset record; only the downloadURL field is
used by the source. -/
structure Distribution where
  downloadURL : String
deriving DecidableEq

/-- A dataset record of the metadata payload, with the four fields the
source reads. -/
structure DatasetRecord where
  identifier : String
  keyword : List String
  modified : String
  distribution : List Distribution
deriving DecidableEq

/-- Tests whether the first list occurs at the start of the second. -/
def beginsWith : List Char → List Char → Bool
  | [], _ => true
  | _ :: _, [] => false
  | a :: as, b :: bs => a == b && beginsWith as bs

/-- Tests whether the needle occurs as a contiguous substring of the hay. -/
def containsSub (needle : List Char) : List Char → Bool
  | [] => beginsWith needle []
  | c :: rest => beginsWith needle (c :: rest) || containsSub needle rest

/-- Models re.search of the pattern in the keyword with the IGNORECASE flag,
for a literal (metacharacter-free) pattern such as the hardcoded
string hospital of the entry point: a case-insensitive substring search
(per the spec, a substring search, not a full match). -/
def re_search_ic (pattern keyword : String) : Bool :=
  containsSub (pyLower pattern.data) (pyLower keyword.data)

/-- Models filter_metadata_by_keyword from src/main.py: yield each row one
of whose keywords matches; the inner loop breaks at the first matching
keyword, so a row is yielded at most once per occurrence in the input. -/
def filter_metadata_by_keyword (pattern : String) : List DatasetRecord → List DatasetRecord
  | [] => []
  | row :: rest =>
    if row.keyword.any (fun k => re_search_ic pattern k) then
      row :: filter_metadata_by_keyword pattern rest
    else
      filter_metadata_by_keyword pattern rest

/-! ### The control table and its four operations -/

/-- One row of the sqlite control table, columns (id, status, last_modified). -/
structure ControlRow where
  id : String
  status : String
  last_modified : String
deriving DecidableEq

/-- The control table, as its list of rows in rowid (insertion) order. -/
abbrev ControlTable := List ControlRow

/-- A Python value as handled around cursor.fetchone: either a string or a
row tuple of strings; fetchone itself returns None (modelled by Option) or
a row tuple. -/
inductive PyVal where
  | pstr : String → PyVal
  | ptup : List String → PyVal
deriving DecidableEq

/-- Models the Python membership test of a value against a tuple of values:
an equality test against each element.  The derived equality coincides with
Python equality on these values; in particular a row tuple never equals a
string. -/
def pyIn (x : PyVal) (xs : List PyVal) : Bool := xs.any (fun y => x == y)

/-- Models the Python subscript at index zero on a fetched row tuple (the
source only ever applies it to a nonempty tuple). -/
def pyGetZero : PyVal → String
  | .ptup (v :: _) => v
  | _ => ""

/-- Models get_download_status from src/main.py: SELECT status FROM control
WHERE the id and last_modified columns match; fetchone returns the first
matching row in table order as a one-element tuple, or None. -/
def get_download_status (id last_modified : String) (tbl : ControlTable) : Option PyVal :=
  ((tbl.filter (fun r => r.id == id && r.last_modified == last_modified)).head?).map
    (fun r => PyVal.ptup [r.status])

/-- Models get_latest_completed_download from src/main.py: SELECT
last_modified FROM control WHERE the id column matches and status is
completed; the query has no ORDER BY or MAX, so fetchone returns the first
matching row in table order as a one-element tuple, or None. -/
def get_latest_completed_download (id : String) (tbl : ControlTable) : Option PyVal :=
  ((tbl.filter (fun r => r.id == id && r.status == "completed")).head?).map
    (fun r => PyVal.ptup [r.last_modified])

/-- Models update_download_status from src/main.py: UPDATE control SET
status WHERE the id and last_modified columns match; every matching row is
updated in place, no row is added or removed. -/
def update_download_status (id status last_modified : String) (tbl : ControlTable) :
    ControlTable :=
  tbl.map (fun r =>
    if r.id == id && r.last_modified == last_modified then
      { r with status := status }
    else r)

/-- Models insert_new_download_status from src/main.py: INSERT INTO control;
sqlite appends the new row at the end of the table (largest rowid). -/
def insert_new_download_status (id status last_modified : String) (tbl : ControlTable) :
    ControlTable :=
  tbl ++ [⟨id, status, last_modified⟩]

/-! ### The download worker -/

/-- Splits a character list at every slash; the accumulator holds the
reversed current segment.  Like Python str.split with an explicit
separator, adjacent slashes produce empty segments. -/
def splitSlashAux (acc : List Char) : List Char → List (List Char)
  | [] => [acc.reverse]
  | c :: rest =>
    if c == '/' then acc.reverse :: splitSlashAux [] rest
    else splitSlashAux (c :: acc) rest

/-- Models the Python expression taking the last element of url split at
slash: the final path segment of the URL. -/
def lastUrlSegment (url : String) : String :=
  String.mk ((splitSlashAux [] url.data).getLastD [])

/-- The observable outcome of one download_csv invocation: the control table
afterwards, whether the pd.read_csv fetch was attempted, and the file
written (the last URL path segment) when the fetch succeeded.  That the
function returns a value at all models the except clause catching every
exception of the try block. -/
structure WorkerResult where
  store : ControlTable
  fetched : Bool
  wrote : Option String
deriving DecidableEq

/-- Models download_csv from src/main.py.  The fetchOk flag models whether
the fetch, column rename and file write steps all succeed (true) or some
step raises (false).  Two behaviours of the source are kept faithfully:
the elif compares the fetchone result, a row tuple, against the strings
processing and completed, which is False whenever a row exists; and no
branch of the status dispatch returns early, so the try block always
runs. -/
def download_csv (fetchOk : Bool) (id url last_modified : String) (tbl : ControlTable) :
    WorkerResult :=
  let status := get_download_status id last_modified tbl
  let tbl1 :=
    match status with
    | none => insert_new_download_status id "processing" last_modified tbl
    | some st =>
      if pyIn st [PyVal.pstr "processing", PyVal.pstr "completed"] then
        tbl
      else
        update_download_status id "processing" last_modified tbl
  if fetchOk then
    { store := update_download_status id "completed" last_modified tbl1
      fetched := true
      wrote := some (lastUrlSegment url) }
  else
    { store := update_download_status id "failed" last_modified tbl1
      fetched := true
      wrote := none }

/-! ### The download planner and the dispatcher -/

/-- Lexicographic strict order on character lists, comparing code points,
as Python compares strings (and as the Lean string order is defined). -/
def charListLt : List Char → List Char → Bool
  | _, [] => false
  | [], _ :: _ => true
  | a :: as, b :: bs => if a < b then true else if b < a then false else charListLt as bs

/-- Models the Python strict comparison of two strings: lexicographic by
code point. -/
def pyStrLt (a b : String) : Bool := charListLt a.data b.data

/-- The planner condition of the loop in get_download_list: add the record
when the lookup returned None, or when the first element of the returned
tuple is lexicographically below the candidate last_modified. -/
def shouldDownload (tbl : ControlTable) (id last_modified : String) : Bool :=
  match get_latest_completed_download id tbl with
  | none => true
  | some latest => pyStrLt (pyGetZero latest) last_modified

/-- Models the subscripts row distribution zero downloadURL; the source
assumes a nonempty distribution list. -/
def firstDownloadURL (row : DatasetRecord) : String :=
  (row.distribution.headD ⟨""⟩).downloadURL

/-- The loop body of get_download_list: the tuple appended for a filtered
record when the planner condition holds, and nothing otherwise. -/
def planRow (tbl : ControlTable) (row : DatasetRecord) : Option (String × String × String) :=
  if shouldDownload tbl row.identifier row.modified then
    some (row.identifier, firstDownloadURL row, row.modified)
  else
    none

/-- Models get_download_list from src/main.py.  The metadata argument is the
JSON payload produced by download_metadata, the external HTTP fetch.  The
source loop appends exactly the tuples of the filtered records whose
condition holds, in order, which is this filterMap. -/
def get_download_list (pattern : String) (metadata : List DatasetRecord)
    (tbl : ControlTable) : List (String × String × String) :=
  (filter_metadata_by_keyword pattern metadata).filterMap (planRow tbl)

/-- Models the pool starmap of download_all dispatching download_csv over the
worklist, sequentially in worklist order (the claims under scrutiny concern
sequential, non-concurrent execution); fetchOk gives the external fetch
outcome per item. -/
def run_worklist (fetchOk : String → String → String → Bool)
    (links : List (String × String × String)) (tbl : ControlTable) : ControlTable :=
  links.foldl
    (fun t l => (download_csv (fetchOk l.1 l.2.1 l.2.2) l.1 l.2.1 l.2.2 t).store) tbl

/-- Models download_all from src/main.py: build the worklist, then dispatch
all of it. -/
def download_all (fetchOk : String → String → String → Bool) (pattern : String)
    (metadata : List DatasetRecord) (tbl : ControlTable) : ControlTable :=
  run_worklist fetchOk (get_download_list pattern metadata tbl) tbl

/-! ### Spec-side character predicates (for the normalization claims) -/

/-- An ASCII uppercase letter. -/
def isUpperAscii (c : Char) : Bool := decide (65 ≤ c.toNat ∧ c.toNat ≤ 90)

/-- A character that is neither an apostrophe, nor a space, nor an ASCII
uppercase letter. -/
def goodChar (c : Char) : Bool := !(c == apostrophe) && !(c == ' ') && !(isUpperAscii c)

/-- The list neither starts nor ends with a whitespace character. -/
def noEdgeWhitespace (l : List Char) : Bool :=
  l.head?.all (fun c => !(isPyWs c)) && l.getLast?.all (fun c => !(isPyWs c))

/-- The uniqueness invariant of the control table: at most one row per
(id, last_modified) pair. -/
def atMostOnePerKey (tbl : ControlTable) : Prop :=
  (tbl.map (fun r => (r.id, r.last_modified))).Nodup

/-- A one-item metadata feed whose dataset matches the hardcoded keyword
pattern, offered at version 2024. -/
def staleMetadata : List DatasetRecord :=
  [⟨"d", ["hospital"], "2024", [⟨"http://x/f.csv"⟩]⟩]

/-- A control table already holding an older completed version of the same
dataset. -/
def staleTable : ControlTable := [⟨"d", "completed", "2020"⟩]

/-! ### The keyword filter (claim C8) -/

theorem filter_metadata_sublist (pattern : String) (data : List DatasetRecord) :
    (filter_metadata_by_keyword pattern data).Sublist data := by
  induction data with
  | nil => exact List.Sublist.refl []
  | cons row rest ih =>
    rw [filter_metadata_by_keyword]
    split
    · exact ih.cons₂ row
    · exact ih.cons row

theorem filter_metadata_all_match (pattern : String) (data : List DatasetRecord) :
    (filter_metadata_by_keyword pattern data).all
      (fun row => row.keyword.any (fun k => re_search_ic pattern k)) = true := by
  induction data with
  | nil => rfl
  | cons row rest ih =>
    rw [filter_metadata_by_keyword]
    split
    · next h => simp [List.all_cons, h, ih]
    · exact ih

/-- Claim C8: for every pattern and record sequence, the keyword filter
yields a subsequence of the input in the original order; each record is
yielded at most as often as it occurs in the input, even when several of
its keywords match; and every yielded record has at least one keyword in
which the pattern matches case-insensitively as a substring. -/
theorem keyword_filter_sound (pattern : String) (data : List DatasetRecord) :
    (filter_metadata_by_keyword pattern data).Sublist data
    ∧ (filter_metadata_by_keyword pattern data).all
        (fun row => row.keyword.any (fun k => re_search_ic pattern k)) = true
    ∧ ∀ row : DatasetRecord,
        (filter_metadata_by_keyword pattern data).count row ≤ data.count row :=
  ⟨filter_metadata_sublist pattern data, filter_metadata_all_match pattern data,
    fun row => (filter_metadata_sublist pattern data).count_le row⟩

/-! ### The broken idempotent skip of the worker (claim C1) -/

/-- Claim C1 (code bug): a worker invocation that observes status processing
for the exact (id, last_modified) pair is meant to log and return without
downloading.  The source instead compares the fetchone result, a row tuple,
against the strings processing and completed, which is never true, and the
skip branch has no return; so the worker fetches, writes the output file,
and moves the row on to completed. -/
theorem download_worker_skip_is_broken :
    pyIn (PyVal.ptup ["processing"]) [PyVal.pstr "processing", PyVal.pstr "completed"] = false
    ∧ get_download_status "ds1" "2024-01-01" [⟨"ds1", "processing", "2024-01-01"⟩]
        = some (PyVal.ptup ["processing"])
    ∧ (download_csv true "ds1" "http://example.org/files/data.csv" "2024-01-01"
        [⟨"ds1", "processing", "2024-01-01"⟩]).fetched = true
    ∧ (download_csv true "ds1" "http://example.org/files/data.csv" "2024-01-01"
        [⟨"ds1", "processing", "2024-01-01"⟩]).wrote = some "data.csv"
    ∧ (download_csv true "ds1" "http://example.org/files/data.csv" "2024-01-01"
        [⟨"ds1", "processing", "2024-01-01"⟩]).store
        = [⟨"ds1", "completed", "2024-01-01"⟩] := by
  decide

/-! ### The latest-completed lookup (claim C2) -/

/-- Claim C2 counterexample: with two completed rows for the same id, the
lookup returns the older, first-inserted last_modified, not the maximal
one. -/
theorem latest_completed_not_maximal :
    get_latest_completed_download "d"
        [⟨"d", "completed", "2023"⟩, ⟨"d", "completed", "2024"⟩]
      = some (PyVal.ptup ["2023"])
    ∧ pyStrLt "2023" "2024" = true := by
  decide

/-! ### Idempotence of the pipeline (claim C3) -/

/-- Claim C3 counterexample: starting from a control table that holds an
older completed version of the dataset, the first run downloads the 2024
version and completes it, yet the second run against the unchanged feed
plans the very same download again, because the lookup returns the older
completed row first; the second worklist is not empty. -/
theorem second_run_downloads_again :
    get_download_list "hospital" staleMetadata
        (download_all (fun _ _ _ => true) "hospital" staleMetadata staleTable)
      = [("d", "http://x/f.csv", "2024")]
    ∧ [("d", "http://x/f.csv", "2024")] ≠ ([] : List (String × String × String)) := by
  decide

/-! ### The snake-case normalization (claims C9 and C10) -/

theorem char_toNat_inj {a b : Char} (h : a.toNat = b.toNat) : a = b :=
  Char.ext (UInt32.toNat.inj h)

theorem toNat_ofNat_lt {n : Nat} (h : n < 55296) : (Char.ofNat n).toNat = n := by
  have hv : n.isValidChar := Or.inl h
  rw [Char.ofNat, dif_pos hv]
  rfl

theorem toNat_toLower (c : Char) :
    c.toLower.toNat = if c.toNat ≥ 65 ∧ c.toNat ≤ 90 then c.toNat + 32 else c.toNat := by
  rw [Char.toLower]
  split
  · next h => exact toNat_ofNat_lt (by omega)
  · rfl

theorem toLower_toLower (c : Char) : c.toLower.toLower = c.toLower := by
  apply char_toNat_inj
  rw [toNat_toLower, toNat_toLower c]
  split
  · next h => rw [if_neg]; omega
  · rfl

theorem toLower_eq_of_small {c target : Char} (ht : target.toNat < 65) :
    c.toLower = target ↔ c = target := by
  constructor
  · intro h
    apply char_toNat_inj
    have h2 := congrArg Char.toNat h
    rw [toNat_toLower] at h2
    split at h2
    · omega
    · exact h2
  · intro h
    subst h
    apply char_toNat_inj
    rw [toNat_toLower, if_neg (by omega)]

theorem isPyWs_toLower (c : Char) : isPyWs c.toLower = isPyWs c := by
  simp only [isPyWs, toNat_toLower]
  split
  · next h => rw [decide_eq_decide]; omega
  · rfl

theorem isUpperAscii_toLower (c : Char) : isUpperAscii c.toLower = false := by
  simp only [isUpperAscii, toNat_toLower]
  split
  · next h => rw [decide_eq_false_iff_not]; omega
  · next h => rw [decide_eq_false_iff_not]; omega

theorem mem_collapseSpacesAux {c : Char} (l : List Char) :
    ∀ b, c ∈ collapseSpacesAux b l → c = ' ' ∨ c ∈ l := by
  induction l with
  | nil => intro b h; simp only [collapseSpacesAux] at h; cases h
  | cons d rest ih =>
    intro b h
    simp only [collapseSpacesAux] at h
    split at h
    · next hd =>
      split at h
      · rcases ih true h with h1 | h1
        · exact Or.inl h1
        · exact Or.inr (List.mem_cons_of_mem d h1)
      · rcases List.mem_cons.mp h with h1 | h1
        · exact Or.inl h1
        · rcases ih true h1 with h2 | h2
          · exact Or.inl h2
          · exact Or.inr (List.mem_cons_of_mem d h2)
    · next hd =>
      rcases List.mem_cons.mp h with h1 | h1
      · exact Or.inr (List.mem_cons.mpr (Or.inl h1))
      · rcases ih false h1 with h2 | h2
        · exact Or.inl h2
        · exact Or.inr (List.mem_cons_of_mem d h2)

theorem collapseSpacesAux_eq_self {l : List Char} :
    (∀ c ∈ l, ¬c = ' ') → ∀ b, collapseSpacesAux b l = l := by
  induction l with
  | nil => intro _ _; rfl
  | cons d rest ih =>
    intro h b
    have hd : ¬(d == ' ') = true := by
      simpa using h d (List.mem_cons_self d rest)
    simp only [collapseSpacesAux, if_neg hd]
    rw [ih (fun c hc => h c (List.mem_cons_of_mem d hc)) false]

theorem mem_removeApostrophes {c : Char} {l : List Char} (h : c ∈ removeApostrophes l) :
    ¬c = apostrophe := by
  have h2 := List.of_mem_filter h
  simpa using h2

theorem removeApostrophes_eq_self {l : List Char} (h : ∀ c ∈ l, ¬c = apostrophe) :
    removeApostrophes l = l :=
  List.filter_eq_self.mpr (fun c hc => by simpa using h c hc)

theorem head?_dropWhile_false {p : Char → Bool} :
    ∀ {l : List Char} {c : Char}, (l.dropWhile p).head? = some c → p c = false := by
  intro l
  induction l with
  | nil => intro c h; simp [List.dropWhile_nil] at h
  | cons d rest ih =>
    intro c h
    rw [List.dropWhile_cons] at h
    split at h
    · exact ih h
    · next hd =>
      rw [List.head?_cons] at h
      cases Option.some.inj h
      simpa using hd

theorem head?_eq_of_pre {l₁ l₂ : List Char} {c : Char} (hp : l₁ <+: l₂)
    (h : l₁.head? = some c) : l₂.head? = some c := by
  obtain ⟨t, rfl⟩ := hp
  cases l₁ with
  | nil => simp at h
  | cons d rest => simpa using h

theorem getLast?_dropTrailingWs {l : List Char} {c : Char}
    (h : (dropTrailingWs l).getLast? = some c) : isPyWs c = false := by
  rw [dropTrailingWs, List.getLast?_reverse] at h
  exact head?_dropWhile_false h

theorem head?_dropTrailingWs {l : List Char} {c : Char}
    (h : (dropTrailingWs l).head? = some c) : l.head? = some c := by
  have hs : l.reverse.dropWhile isPyWs <:+ l.reverse := List.dropWhile_suffix _
  have hpre := List.reverse_prefix.mpr hs
  rw [List.reverse_reverse] at hpre
  exact head?_eq_of_pre hpre h

theorem head?_pyStrip_false {l : List Char} {c : Char} (h : (pyStrip l).head? = some c) :
    isPyWs c = false := by
  rw [pyStrip] at h
  exact head?_dropWhile_false (head?_dropTrailingWs h)

theorem getLast?_pyStrip_false {l : List Char} {c : Char}
    (h : (pyStrip l).getLast? = some c) : isPyWs c = false := by
  rw [pyStrip] at h
  exact getLast?_dropTrailingWs h

theorem mem_pyStrip {c : Char} {l : List Char} (h : c ∈ pyStrip l) : c ∈ l := by
  rw [pyStrip, dropTrailingWs] at h
  have h1 := List.mem_reverse.mp h
  have h2 := (List.dropWhile_sublist (l := (l.dropWhile isPyWs).reverse) isPyWs).subset h1
  have h3 := List.mem_reverse.mp h2
  exact (List.dropWhile_sublist (l := l) isPyWs).subset h3

theorem dropWhile_eq_self_of_head {p : Char → Bool} {l : List Char}
    (h : ∀ c, l.head? = some c → p c = false) : l.dropWhile p = l := by
  cases l with
  | nil => rfl
  | cons d rest => rw [List.dropWhile_cons, if_neg (by simp [h d rfl])]

theorem pyStrip_eq_self {l : List Char} (h : noEdgeWhitespace l = true) : pyStrip l = l := by
  rw [noEdgeWhitespace, Bool.and_eq_true] at h
  obtain ⟨h1, h2⟩ := h
  have hhead : ∀ c, l.head? = some c → isPyWs c = false := by
    intro c hc
    rw [hc] at h1
    simpa using h1
  have hlast : ∀ c, l.getLast? = some c → isPyWs c = false := by
    intro c hc
    rw [hc] at h2
    simpa using h2
  rw [pyStrip, dropWhile_eq_self_of_head hhead, dropTrailingWs,
    dropWhile_eq_self_of_head (fun c hc => hlast c (List.head?_reverse l ▸ hc)),
    List.reverse_reverse]

theorem spaceToUnderscore_eq_self {l : List Char} (h : ∀ c ∈ l, ¬c = ' ') :
    spaceToUnderscore l = l := by
  rw [spaceToUnderscore]
  have h2 : ∀ c ∈ l, (if c == ' ' then '_' else c) = c := by
    intro c hc
    rw [if_neg (by simpa using h c hc)]
  rw [List.map_congr_left h2, List.map_id']

theorem goodChar_props {c : Char} (h : goodChar c = true) :
    ¬c = apostrophe ∧ ¬c = ' ' ∧ isUpperAscii c = false := by
  rw [goodChar, Bool.and_eq_true, Bool.and_eq_true] at h
  obtain ⟨⟨h1, h2⟩, h3⟩ := h
  refine ⟨by simpa using h1, by simpa using h2, by simpa using h3⟩

theorem goodChar_snakeList {l : List Char} : ∀ c ∈ snakeList l, goodChar c = true := by
  intro c hc
  rw [snakeList, pyLower, List.mem_map] at hc
  obtain ⟨d, hd, rfl⟩ := hc
  rw [spaceToUnderscore, List.mem_map] at hd
  obtain ⟨e, he, rfl⟩ := hd
  have hz : e ∈ collapseSpaces (removeApostrophes l) := mem_pyStrip he
  rw [collapseSpaces] at hz
  have he2 := mem_collapseSpacesAux _ false hz
  by_cases hsp : e = ' '
  · subst hsp
    decide
  · have hy : (if e == ' ' then '_' else e) = e := if_neg (by simpa using hsp)
    simp only [hy]
    have hne_apos : ¬e = apostrophe := by
      rcases he2 with h1 | h1
      · exact absurd h1 hsp
      · exact mem_removeApostrophes h1
    have f1 : (Char.toLower e == apostrophe) = false := by
      have hne : ¬Char.toLower e = apostrophe :=
        fun hEq => hne_apos ((toLower_eq_of_small (by decide)).mp hEq)
      simpa using hne
    have f2 : (Char.toLower e == ' ') = false := by
      have hne : ¬Char.toLower e = ' ' :=
        fun hEq => hsp ((toLower_eq_of_small (by decide)).mp hEq)
      simpa using hne
    simp [goodChar, f1, f2, isUpperAscii_toLower]

theorem noEdgeWhitespace_snakeList (l : List Char) :
    noEdgeWhitespace (snakeList l) = true := by
  rw [noEdgeWhitespace, Bool.and_eq_true]
  constructor
  · rw [snakeList, pyLower, spaceToUnderscore, List.map_map, List.head?_map]
    cases hh : (pyStrip (collapseSpaces (removeApostrophes l))).head? with
    | none => rfl
    | some d =>
      have hd := head?_pyStrip_false hh
      have hds : ¬d = ' ' := fun hEq => by
        rw [hEq] at hd
        exact absurd hd (by decide)
      have hy : (if d == ' ' then '_' else d) = d := if_neg (by simpa using hds)
      have hg : (!isPyWs (Char.toLower (if d == ' ' then '_' else d))) = true := by
        rw [hy, isPyWs_toLower, hd]
        rfl
      simp only [Option.map_some', Option.all_some, Function.comp_apply]
      exact hg
  · rw [snakeList, pyLower, spaceToUnderscore, List.map_map, List.getLast?_map]
    cases hh : (pyStrip (collapseSpaces (removeApostrophes l))).getLast? with
    | none => rfl
    | some d =>
      have hd := getLast?_pyStrip_false hh
      have hds : ¬d = ' ' := fun hEq => by
        rw [hEq] at hd
        exact absurd hd (by decide)
      have hy : (if d == ' ' then '_' else d) = d := if_neg (by simpa using hds)
      have hg : (!isPyWs (Char.toLower (if d == ' ' then '_' else d))) = true := by
        rw [hy, isPyWs_toLower, hd]
        rfl
      simp only [Option.map_some', Option.all_some, Function.comp_apply]
      exact hg

theorem pyLower_pyLower (m : List Char) : pyLower (pyLower m) = pyLower m := by
  rw [pyLower, pyLower, List.map_map]
  exact List.map_congr_left (fun c _ => toLower_toLower c)

theorem snakeList_idem (l : List Char) : snakeList (snakeList l) = snakeList l := by
  have hap : ∀ c ∈ snakeList l, ¬c = apostrophe :=
    fun c hc => (goodChar_props (goodChar_snakeList c hc)).1
  have hsp : ∀ c ∈ snakeList l, ¬c = ' ' :=
    fun c hc => (goodChar_props (goodChar_snakeList c hc)).2.1
  have hcollapse : collapseSpaces (snakeList l) = snakeList l := by
    rw [collapseSpaces]
    exact collapseSpacesAux_eq_self hsp false
  conv_lhs => rw [snakeList]
  rw [removeApostrophes_eq_self hap, hcollapse,
    pyStrip_eq_self (noEdgeWhitespace_snakeList l), spaceToUnderscore_eq_self hsp,
    snakeList]
  exact pyLower_pyLower _

/-- Claim C9: the column-name normalization is idempotent; applying
convert_to_snake_case twice equals applying it once, for every string. -/
theorem convert_to_snake_case_idem (x : String) :
    convert_to_snake_case (convert_to_snake_case x) = convert_to_snake_case x :=
  congrArg String.mk (snakeList_idem x.data)

/-- Claim C10: for every input string, the output of convert_to_snake_case
contains no apostrophe, no space, and no ASCII uppercase letter, and it
neither starts nor ends with a whitespace character. -/
theorem convert_to_snake_case_chars (x : String) :
    (convert_to_snake_case x).data.all goodChar = true
    ∧ noEdgeWhitespace (convert_to_snake_case x).data = true :=
  ⟨List.all_eq_true.mpr (fun c hc => goodChar_snakeList c hc),
    noEdgeWhitespace_snakeList x.data⟩

/-! ### The worker, the planner and the control table (claims C4 to C7, C2 and C3 amended) -/

theorem mem_of_head? {α : Type} {l : List α} {a : α} (h : l.head? = some a) : a ∈ l := by
  cases l with
  | nil => cases h
  | cons x xs =>
    rw [List.head?_cons] at h
    have hx := Option.some.inj h
    subst hx
    exact List.mem_cons_self x xs

theorem download_csv_store (ok : Bool) (id url lm : String) (tbl : ControlTable) :
    (download_csv ok id url lm tbl).store
      = update_download_status id (if ok then "completed" else "failed") lm
          (match get_download_status id lm tbl with
           | none => insert_new_download_status id "processing" lm tbl
           | some st =>
             if pyIn st [PyVal.pstr "processing", PyVal.pstr "completed"] then tbl
             else update_download_status id "processing" lm tbl) := by
  cases ok <;> rfl

theorem download_csv_fetched (ok : Bool) (id url lm : String) (tbl : ControlTable) :
    (download_csv ok id url lm tbl).fetched = true := by
  cases ok <;> rfl

theorem download_csv_wrote_none (id url lm : String) (tbl : ControlTable) :
    (download_csv false id url lm tbl).wrote = none := rfl

theorem get_download_status_none_iff {id lm : String} {tbl : ControlTable} :
    get_download_status id lm tbl = none
      ↔ ∀ r ∈ tbl, ¬(r.id = id ∧ r.last_modified = lm) := by
  rw [get_download_status, Option.map_eq_none', List.head?_eq_none_iff,
    List.filter_eq_nil_iff]
  constructor
  · intro h r hr hc
    exact h r hr (by simp [hc.1, hc.2])
  · intro h r hr hc
    rw [Bool.and_eq_true] at hc
    exact h r hr ⟨by simpa using hc.1, by simpa using hc.2⟩

theorem status_some_hasKey {id lm : String} {tbl : ControlTable} {st : PyVal}
    (hs : get_download_status id lm tbl = some st) :
    ∃ r ∈ tbl, r.id = id ∧ r.last_modified = lm := by
  rw [get_download_status, Option.map_eq_some'] at hs
  obtain ⟨r, hr, _⟩ := hs
  have hmem := mem_of_head? hr
  have hpred := List.of_mem_filter hmem
  rw [Bool.and_eq_true] at hpred
  exact ⟨r, List.mem_of_mem_filter hmem, by simpa using hpred.1, by simpa using hpred.2⟩

theorem mem_update_key_status {id s lm : String} {tbl : ControlTable} {r : ControlRow}
    (h : r ∈ update_download_status id s lm tbl) (hid : r.id = id)
    (hlm : r.last_modified = lm) : r.status = s := by
  rw [update_download_status, List.mem_map] at h
  obtain ⟨r0, h0, heq⟩ := h
  by_cases hp : (r0.id == id && r0.last_modified == lm) = true
  · rw [if_pos hp] at heq
    rw [← heq]
  · rw [if_neg hp] at heq
    subst heq
    exact absurd (by simp [hid, hlm]) hp

theorem update_hasKey {id s lm i m : String} {tbl : ControlTable}
    (h : ∃ r ∈ tbl, r.id = i ∧ r.last_modified = m) :
    ∃ r ∈ update_download_status id s lm tbl, r.id = i ∧ r.last_modified = m := by
  obtain ⟨r, hr, h1, h2⟩ := h
  refine ⟨(if r.id == id && r.last_modified == lm then { r with status := s } else r),
    List.mem_map_of_mem _ hr, ?_⟩
  by_cases hp : (r.id == id && r.last_modified == lm) = true
  · rw [if_pos hp]
    exact ⟨h1, h2⟩
  · rw [if_neg hp]
    exact ⟨h1, h2⟩

theorem download_csv_hasKey (ok : Bool) (id url lm : String) (tbl : ControlTable) :
    ∃ r ∈ (download_csv ok id url lm tbl).store, r.id = id ∧ r.last_modified = lm := by
  rw [download_csv_store]
  apply update_hasKey
  cases hs : get_download_status id lm tbl with
  | none =>
    refine ⟨⟨id, "processing", lm⟩, ?_, rfl, rfl⟩
    rw [insert_new_download_status]
    exact List.mem_append_right _ (List.mem_singleton_self _)
  | some st =>
    have hex := status_some_hasKey hs
    show ∃ r ∈ (if pyIn st [PyVal.pstr "processing", PyVal.pstr "completed"] then tbl
        else update_download_status id "processing" lm tbl),
      r.id = id ∧ r.last_modified = lm
    split
    · exact hex
    · exact update_hasKey hex

theorem download_csv_hasKey_mono (ok : Bool) (id url lm i m : String) (tbl : ControlTable)
    (h : ∃ r ∈ tbl, r.id = i ∧ r.last_modified = m) :
    ∃ r ∈ (download_csv ok id url lm tbl).store, r.id = i ∧ r.last_modified = m := by
  rw [download_csv_store]
  apply update_hasKey
  cases hs : get_download_status id lm tbl with
  | none =>
    obtain ⟨r, hr, h1, h2⟩ := h
    refine ⟨r, ?_, h1, h2⟩
    rw [insert_new_download_status]
    exact List.mem_append_left _ hr
  | some st =>
    show ∃ r ∈ (if pyIn st [PyVal.pstr "processing", PyVal.pstr "completed"] then tbl
        else update_download_status id "processing" lm tbl),
      r.id = i ∧ r.last_modified = m
    split
    · exact h
    · exact update_hasKey h

theorem run_worklist_cons (f : String → String → String → Bool)
    (a : String × String × String) (ls : List (String × String × String))
    (t : ControlTable) :
    run_worklist f (a :: ls) t
      = run_worklist f ls ((download_csv (f a.1 a.2.1 a.2.2) a.1 a.2.1 a.2.2 t).store) := rfl

theorem run_worklist_hasKey_mono (f : String → String → String → Bool) (i m : String) :
    ∀ (links : List (String × String × String)) (tbl : ControlTable),
      (∃ r ∈ tbl, r.id = i ∧ r.last_modified = m) →
      ∃ r ∈ run_worklist f links tbl, r.id = i ∧ r.last_modified = m := by
  intro links
  induction links with
  | nil => intro tbl h; exact h
  | cons a rest ih =>
    intro tbl h
    rw [run_worklist_cons]
    exact ih _ (download_csv_hasKey_mono _ _ _ _ _ _ _ h)

theorem run_worklist_hasKey (f : String → String → String → Bool)
    (l : String × String × String) :
    ∀ (links : List (String × String × String)) (tbl : ControlTable), l ∈ links →
      ∃ r ∈ run_worklist f links tbl, r.id = l.1 ∧ r.last_modified = l.2.2 := by
  intro links
  induction links with
  | nil => intro tbl h; cases h
  | cons a rest ih =>
    intro tbl hl
    rcases List.mem_cons.mp hl with h1 | h1
    · subst h1
      rw [run_worklist_cons]
      exact run_worklist_hasKey_mono f l.1 l.2.2 rest _
        (download_csv_hasKey (f l.1 l.2.1 l.2.2) l.1 l.2.1 l.2.2 tbl)
    · rw [run_worklist_cons]
      exact ih _ h1

theorem countP_update_key (id s lm i m : String) (tbl : ControlTable) :
    (update_download_status id s lm tbl).countP
        (fun r => r.id == i && r.last_modified == m)
      = tbl.countP (fun r => r.id == i && r.last_modified == m) := by
  rw [update_download_status, List.countP_map]
  apply List.countP_congr
  intro r _
  simp only [Function.comp_apply]
  by_cases hp : (r.id == id && r.last_modified == lm) = true
  · rw [if_pos hp]
  · rw [if_neg hp]

/-- Claim C4: when the fetch, rename or write step raises, the worker writes
no file, transitions the control row for (id, last_modified) to failed, and
returns normally (the exception is contained), so that under the sequential
dispatch modelled by run_worklist every remaining worklist item is still
processed (each leaves a row with its key in the final table). -/
theorem worker_failure_contained (id url lm : String) (tbl : ControlTable)
    (fetchOk : String → String → String → Bool)
    (links : List (String × String × String)) (l : String × String × String)
    (hl : l ∈ links) :
    (download_csv false id url lm tbl).wrote = none
    ∧ (download_csv false id url lm tbl).store.any
        (fun r => r.id == id && r.last_modified == lm && r.status == "failed") = true
    ∧ (download_csv false id url lm tbl).store.all
        (fun r => !(r.id == id && r.last_modified == lm) || r.status == "failed") = true
    ∧ (run_worklist fetchOk links tbl).any
        (fun r => r.id == l.1 && r.last_modified == l.2.2) = true := by
  refine ⟨rfl, ?_, ?_, ?_⟩
  · rw [List.any_eq_true]
    obtain ⟨r, hr, h1, h2⟩ := download_csv_hasKey false id url lm tbl
    have hr2 := hr
    rw [download_csv_store] at hr2
    have h3 := mem_update_key_status hr2 h1 h2
    refine ⟨r, hr, ?_⟩
    simp only [if_neg Bool.false_ne_true] at h3
    simp [h1, h2, h3]
  · rw [List.all_eq_true]
    intro r hr
    rw [download_csv_store] at hr
    by_cases hk : r.id = id ∧ r.last_modified = lm
    · have h3 := mem_update_key_status hr hk.1 hk.2
      simp only [if_neg Bool.false_ne_true] at h3
      simp [h3]
    · rcases not_and_or.mp hk with h | h <;> simp [h]
  · rw [List.any_eq_true]
    obtain ⟨r, hr, h1, h2⟩ := run_worklist_hasKey fetchOk l links tbl hl
    exact ⟨r, hr, by simp [h1, h2]⟩

/-- Claim C5: when the status lookup for (id, last_modified) observes a
failed row, the worker re-marks the row processing by an in-place update
(an update, not an insert), so the table length and the number of rows for
that key are unchanged, and every row for the key ends the invocation as
completed (successful fetch) or failed (raised fetch). -/
theorem failed_retry_in_place (ok : Bool) (id url lm : String) (tbl : ControlTable)
    (h : get_download_status id lm tbl = some (PyVal.ptup ["failed"])) :
    (download_csv ok id url lm tbl).store
      = update_download_status id (if ok then "completed" else "failed") lm
          (update_download_status id "processing" lm tbl)
    ∧ (download_csv ok id url lm tbl).store.length = tbl.length
    ∧ (download_csv ok id url lm tbl).store.countP
        (fun r => r.id == id && r.last_modified == lm)
      = tbl.countP (fun r => r.id == id && r.last_modified == lm)
    ∧ ∀ r ∈ (download_csv ok id url lm tbl).store, r.id = id → r.last_modified = lm →
        r.status = (if ok then "completed" else "failed") := by
  have hstore : (download_csv ok id url lm tbl).store
      = update_download_status id (if ok then "completed" else "failed") lm
          (update_download_status id "processing" lm tbl) := by
    rw [download_csv_store, h]
    rfl
  refine ⟨hstore, ?_, ?_, ?_⟩
  · rw [hstore, update_download_status, List.length_map, update_download_status,
      List.length_map]
  · rw [hstore, countP_update_key, countP_update_key]
  · intro r hr h1 h2
    rw [hstore] at hr
    exact mem_update_key_status hr h1 h2

theorem update_keys (i s m : String) (t : ControlTable) :
    (update_download_status i s m t).map (fun r => (r.id, r.last_modified))
      = t.map (fun r => (r.id, r.last_modified)) := by
  rw [update_download_status, List.map_map]
  apply List.map_congr_left
  intro r _
  simp only [Function.comp_apply]
  by_cases hp : (r.id == i && r.last_modified == m) = true
  · rw [if_pos hp]
  · rw [if_neg hp]

theorem atMostOne_update {i s m : String} {t : ControlTable} (h : atMostOnePerKey t) :
    atMostOnePerKey (update_download_status i s m t) := by
  rw [atMostOnePerKey, update_keys]
  exact h

theorem atMostOne_insert {id s lm : String} {t : ControlTable}
    (hnone : get_download_status id lm t = none) (h : atMostOnePerKey t) :
    atMostOnePerKey (insert_new_download_status id s lm t) := by
  rw [atMostOnePerKey, insert_new_download_status, List.map_append]
  rw [get_download_status_none_iff] at hnone
  refine List.Nodup.append h (List.nodup_singleton _) ?_
  intro a ha hb
  rw [List.mem_map] at ha
  obtain ⟨r, hr, rfl⟩ := ha
  rw [List.map_cons, List.map_nil, List.mem_singleton] at hb
  exact hnone r hr ⟨congrArg Prod.fst hb, congrArg Prod.snd hb⟩

theorem atMostOne_download_csv (ok : Bool) (id url lm : String) {tbl : ControlTable}
    (h : atMostOnePerKey tbl) : atMostOnePerKey (download_csv ok id url lm tbl).store := by
  rw [download_csv_store]
  apply atMostOne_update
  cases hs : get_download_status id lm tbl with
  | none => exact atMostOne_insert hs h
  | some st =>
    show atMostOnePerKey (if pyIn st [PyVal.pstr "processing", PyVal.pstr "completed"] then tbl
      else update_download_status id "processing" lm tbl)
    split
    · exact h
    · exact atMostOne_update h

theorem atMostOne_run_worklist (f : String → String → String → Bool) :
    ∀ (links : List (String × String × String)) (tbl : ControlTable),
      atMostOnePerKey tbl → atMostOnePerKey (run_worklist f links tbl) := by
  intro links
  induction links with
  | nil => intro tbl h; exact h
  | cons a rest ih =>
    intro tbl h
    rw [run_worklist_cons]
    exact ih _ (atMostOne_download_csv _ _ _ _ h)

theorem latest_shape {id : String} {tbl : ControlTable} {pv : PyVal}
    (h : get_latest_completed_download id tbl = some pv) :
    ∃ v, pv = PyVal.ptup [v] := by
  rw [get_latest_completed_download, Option.map_eq_some'] at h
  obtain ⟨r, _, heq⟩ := h
  exact ⟨r.last_modified, heq.symm⟩

theorem shouldDownload_iff (tbl : ControlTable) (i m : String) :
    shouldDownload tbl i m = true
      ↔ (get_latest_completed_download i tbl = none
         ∨ ∃ v, get_latest_completed_download i tbl = some (PyVal.ptup [v])
             ∧ pyStrLt v m = true) := by
  rw [shouldDownload]
  cases hl : get_latest_completed_download i tbl with
  | none => simp
  | some pv =>
    obtain ⟨v, rfl⟩ := latest_shape hl
    simp [pyGetZero]

/-- Claim C6: under sequential execution every pipeline operation preserves
the invariant that the control table has at most one row per
(id, last_modified) pair; a row is inserted only when the status lookup for
that exact pair returns absent, rows are otherwise mutated in place, and no
row is ever deleted (every input row still has a row with its key). -/
theorem control_table_unique_key (ok : Bool) (id url lm : String)
    (fetchOk : String → String → String → Bool)
    (links : List (String × String × String)) (tbl : ControlTable)
    (h : atMostOnePerKey tbl) :
    atMostOnePerKey (download_csv ok id url lm tbl).store
    ∧ atMostOnePerKey (run_worklist fetchOk links tbl)
    ∧ ∀ r ∈ tbl, ∃ r2 ∈ (download_csv ok id url lm tbl).store,
        r2.id = r.id ∧ r2.last_modified = r.last_modified :=
  ⟨atMostOne_download_csv ok id url lm h, atMostOne_run_worklist fetchOk links tbl h,
    fun r hr =>
      download_csv_hasKey_mono ok id url lm r.id r.last_modified tbl ⟨r, hr, rfl, rfl⟩⟩

/-- Claim C7: for every record surviving the keyword filter, the planner
adds (id, url, last_modified) to the worklist exactly when the
latest-completed lookup for the id returns no row, or the returned
completed last_modified is strictly below the candidate last_modified in
the lexicographic string order; otherwise the record is skipped. -/
theorem planner_adds_iff (pattern : String) (metadata : List DatasetRecord)
    (tbl : ControlTable) (row : DatasetRecord)
    (h : row ∈ filter_metadata_by_keyword pattern metadata) :
    ((row.identifier, firstDownloadURL row, row.modified)
        ∈ get_download_list pattern metadata tbl)
      ↔ (get_latest_completed_download row.identifier tbl = none
         ∨ ∃ v, get_latest_completed_download row.identifier tbl = some (PyVal.ptup [v])
             ∧ pyStrLt v row.modified = true) := by
  rw [← shouldDownload_iff tbl row.identifier row.modified]
  constructor
  · intro hmem
    rw [get_download_list, List.mem_filterMap] at hmem
    obtain ⟨row2, hrow2, hplan⟩ := hmem
    rw [planRow] at hplan
    by_cases hsd : shouldDownload tbl row2.identifier row2.modified = true
    · rw [if_pos hsd] at hplan
      have hids : row2.identifier = row.identifier := congrArg Prod.fst (Option.some.inj hplan)
      have hmods : row2.modified = row.modified :=
        congrArg (fun t => t.2.2) (Option.some.inj hplan)
      rw [← hids, ← hmods]
      exact hsd
    · rw [if_neg hsd] at hplan
      cases hplan
  · intro hsd
    rw [get_download_list, List.mem_filterMap]
    refine ⟨row, h, ?_⟩
    rw [planRow, if_pos hsd]

/-- Claim C2 as amended: the latest-completed lookup returns none exactly
when the identifier has no completed row, and any returned value is the
last_modified of some completed row of that identifier (the first one in
table order) - not necessarily the maximal one, as the counterexample
latest_completed_not_maximal shows. -/
theorem latest_completed_lookup_sound (id : String) (tbl : ControlTable) :
    (get_latest_completed_download id tbl = none
      ↔ ∀ r ∈ tbl, ¬(r.id = id ∧ r.status = "completed"))
    ∧ ∀ v, get_latest_completed_download id tbl = some (PyVal.ptup [v]) →
        ∃ r ∈ tbl, r.id = id ∧ r.status = "completed" ∧ r.last_modified = v := by
  constructor
  · rw [get_latest_completed_download, Option.map_eq_none', List.head?_eq_none_iff,
      List.filter_eq_nil_iff]
    constructor
    · intro h r hr hc
      exact h r hr (by simp [hc.1, hc.2])
    · intro h r hr hc
      rw [Bool.and_eq_true] at hc
      exact h r hr ⟨by simpa using hc.1, by simpa using hc.2⟩
  · intro v hv
    rw [get_latest_completed_download, Option.map_eq_some'] at hv
    obtain ⟨r, hr, heq⟩ := hv
    have hmem := mem_of_head? hr
    have hpred := List.of_mem_filter hmem
    rw [Bool.and_eq_true] at hpred
    refine ⟨r, List.mem_of_mem_filter hmem, by simpa using hpred.1,
      by simpa using hpred.2, ?_⟩
    simpa using heq

theorem charListLt_self : ∀ l : List Char, charListLt l l = false := by
  intro l
  induction l with
  | nil => rfl
  | cons c rest ih =>
    simp only [charListLt, if_neg (Char.lt_irrefl c)]
    exact ih

theorem pyStrLt_self (s : String) : pyStrLt s s = false := charListLt_self s.data

theorem update_of_no_key {i s m : String} {t : ControlTable}
    (h : ∀ r ∈ t, ¬r.id = i) : update_download_status i s m t = t := by
  rw [update_download_status]
  have h2 : ∀ r ∈ t,
      (if r.id == i && r.last_modified == m then { r with status := s } else r) = r := by
    intro r hr
    rw [if_neg]
    intro hc
    rw [Bool.and_eq_true] at hc
    exact h r hr (by simpa using hc.1)
  rw [List.map_congr_left h2, List.map_id']

theorem download_csv_fresh (id url lm : String) (t : ControlTable)
    (h : ∀ r ∈ t, ¬r.id = id) :
    (download_csv true id url lm t).store = t ++ [⟨id, "completed", lm⟩] := by
  have hstatus : get_download_status id lm t = none :=
    get_download_status_none_iff.mpr (fun r hr hc => h r hr hc.1)
  rw [download_csv_store, hstatus]
  show update_download_status id "completed" lm
      (insert_new_download_status id "processing" lm t) = t ++ [⟨id, "completed", lm⟩]
  rw [insert_new_download_status, update_download_status, List.map_append]
  congr 1
  · exact update_of_no_key h
  · simp

theorem run_worklist_all_ok :
    ∀ (links : List (String × String × String)) (t : ControlTable),
      (∀ l ∈ links, ∀ r ∈ t, ¬r.id = l.1) →
      (links.map (fun l => l.1)).Nodup →
      run_worklist (fun _ _ _ => true) links t
        = t ++ links.map (fun l => (⟨l.1, "completed", l.2.2⟩ : ControlRow)) := by
  intro links
  induction links with
  | nil => intro t _ _; simp [run_worklist]
  | cons a rest ih =>
    intro t hfresh hnodup
    rw [List.map_cons, List.nodup_cons] at hnodup
    obtain ⟨ha, hrest⟩ := hnodup
    rw [run_worklist_cons]
    have hstep : (download_csv true a.1 a.2.1 a.2.2 t).store
        = t ++ [⟨a.1, "completed", a.2.2⟩] :=
      download_csv_fresh a.1 a.2.1 a.2.2 t (hfresh a (List.mem_cons_self a rest))
    have hfresh2 : ∀ l ∈ rest, ∀ r ∈ t ++ [(⟨a.1, "completed", a.2.2⟩ : ControlRow)],
        ¬r.id = l.1 := by
      intro l hl r hr
      rcases List.mem_append.mp hr with h1 | h1
      · exact hfresh l (List.mem_cons_of_mem a hl) r h1
      · rw [List.mem_singleton] at h1
        subst h1
        intro hc
        apply ha
        have hc2 : a.1 = l.1 := hc
        rw [hc2]
        exact List.mem_map_of_mem (fun l => l.1) hl
    calc run_worklist (fun _ _ _ => true) rest
          ((download_csv ((fun _ _ _ => true) a.1 a.2.1 a.2.2) a.1 a.2.1 a.2.2 t).store)
        = run_worklist (fun _ _ _ => true) rest (t ++ [⟨a.1, "completed", a.2.2⟩]) := by
          rw [hstep]
      _ = (t ++ [⟨a.1, "completed", a.2.2⟩])
            ++ rest.map (fun l => (⟨l.1, "completed", l.2.2⟩ : ControlRow)) :=
          ih _ hfresh2 hrest
      _ = t ++ (a :: rest).map (fun l => (⟨l.1, "completed", l.2.2⟩ : ControlRow)) := by
          rw [List.map_cons, List.append_assoc, List.singleton_append]

theorem planRow_empty_tbl (row : DatasetRecord) :
    planRow ([] : ControlTable) row
      = some (row.identifier, firstDownloadURL row, row.modified) := rfl

theorem worklist_from_empty (pattern : String) (metadata : List DatasetRecord) :
    get_download_list pattern metadata []
      = (filter_metadata_by_keyword pattern metadata).map
          (fun row => (row.identifier, firstDownloadURL row, row.modified)) := by
  rw [get_download_list]
  generalize filter_metadata_by_keyword pattern metadata = l
  induction l with
  | nil => rfl
  | cons r rest ih =>
    rw [List.filterMap_cons_some (planRow_empty_tbl r), List.map_cons, ih]

theorem filter_nodup_singleton :
    ∀ {l : List DatasetRecord}, (l.map (fun r => r.identifier)).Nodup →
      ∀ {a : DatasetRecord}, a ∈ l →
        l.filter (fun b => b.identifier == a.identifier) = [a] := by
  intro l
  induction l with
  | nil => intro _ a ha; cases ha
  | cons x rest ih =>
    intro hnd a ha
    rw [List.map_cons, List.nodup_cons] at hnd
    obtain ⟨hx, hrest⟩ := hnd
    rcases List.mem_cons.mp ha with h1 | h1
    · subst h1
      rw [List.filter_cons_of_pos (by simp)]
      congr 1
      rw [List.filter_eq_nil_iff]
      intro b hb hc
      apply hx
      have hb2 : b.identifier = a.identifier := by simpa using hc
      rw [← hb2]
      exact List.mem_map_of_mem _ hb
    · rw [List.filter_cons_of_neg, ih hrest h1]
      intro hc
      apply hx
      have hc2 : x.identifier = a.identifier := by simpa using hc
      rw [hc2]
      exact List.mem_map_of_mem _ h1

theorem lookup_in_completed_table {filtered : List DatasetRecord}
    (hnd : (filtered.map (fun r => r.identifier)).Nodup) {row : DatasetRecord}
    (hrow : row ∈ filtered) :
    get_latest_completed_download row.identifier
        (filtered.map (fun r2 => (⟨r2.identifier, "completed", r2.modified⟩ : ControlRow)))
      = some (PyVal.ptup [row.modified]) := by
  rw [get_latest_completed_download, List.filter_map]
  have hpred : ∀ r2 ∈ filtered,
      ((fun r => r.id == row.identifier && r.status == "completed") ∘
        (fun r2 => (⟨r2.identifier, "completed", r2.modified⟩ : ControlRow))) r2
      = (r2.identifier == row.identifier) := by
    intro r2 _
    simp [Function.comp]
  rw [List.filter_congr hpred, filter_nodup_singleton hnd hrow]
  rfl

/-- Claim C3 as amended: when the first run starts from an empty control
table and the feed identifiers are pairwise distinct, running the pipeline
twice against an unchanged feed, with every fetch of the first run
succeeding, leaves the second worklist empty, hence zero downloads the
second time. -/
theorem second_run_empty (pattern : String) (metadata : List DatasetRecord)
    (hnd : (metadata.map (fun r => r.identifier)).Nodup) :
    get_download_list pattern metadata
      (download_all (fun _ _ _ => true) pattern metadata []) = [] := by
  have hfsub := filter_metadata_sublist pattern metadata
  have hfnd : ((filter_metadata_by_keyword pattern metadata).map
      (fun r => r.identifier)).Nodup :=
    (hfsub.map (fun r => r.identifier)).nodup hnd
  have hrun : download_all (fun _ _ _ => true) pattern metadata []
      = (filter_metadata_by_keyword pattern metadata).map
          (fun r => (⟨r.identifier, "completed", r.modified⟩ : ControlRow)) := by
    rw [download_all, worklist_from_empty]
    rw [run_worklist_all_ok _ _ (fun l _ r hr => absurd hr (List.not_mem_nil r)) ?hn]
    case hn =>
      rw [List.map_map]
      exact hfnd
    rw [List.nil_append, List.map_map]
    exact List.map_congr_left (fun r _ => rfl)
  rw [get_download_list, hrun, List.filterMap_eq_nil_iff]
  intro row hrow
  rw [planRow, if_neg]
  intro hsd
  rw [shouldDownload, lookup_in_completed_table hfnd hrow] at hsd
  have hsd2 : pyStrLt row.modified row.modified = true := hsd
  rw [pyStrLt_self] at hsd2
  cases hsd2

/-- A control table with a single failed row, for the retry witness. -/
def retryTable : ControlTable := [⟨"d", "failed", "2020"⟩]

/-- A dataset record matching the hardcoded keyword, for the planner
witness. -/
def demoRecord : DatasetRecord := ⟨"d", ["hospital data"], "2024", [⟨"http://h/x.csv"⟩]⟩

/-- Witness for claim C4 at a concrete invocation and worklist. -/
theorem worker_failure_contained_witness :
    (download_csv false "d" "http://x/f.csv" "2020" []).wrote = none
    ∧ (download_csv false "d" "http://x/f.csv" "2020" []).store.any
        (fun r => r.id == "d" && r.last_modified == "2020" && r.status == "failed") = true
    ∧ (download_csv false "d" "http://x/f.csv" "2020" []).store.all
        (fun r => !(r.id == "d" && r.last_modified == "2020") || r.status == "failed") = true
    ∧ (run_worklist (fun _ _ _ => false) [("d", "http://x/f.csv", "2020")] []).any
        (fun r => r.id == "d" && r.last_modified == "2020") = true :=
  worker_failure_contained "d" "http://x/f.csv" "2020" [] (fun _ _ _ => false)
    [("d", "http://x/f.csv", "2020")] ("d", "http://x/f.csv", "2020")
    (List.mem_cons_self _ _)

/-- Witness for claim C5 at a concrete failed row. -/
theorem failed_retry_in_place_witness :
    (download_csv true "d" "u" "2020" retryTable).store
      = update_download_status "d" (if true then "completed" else "failed") "2020"
          (update_download_status "d" "processing" "2020" retryTable)
    ∧ (download_csv true "d" "u" "2020" retryTable).store.length = retryTable.length
    ∧ (download_csv true "d" "u" "2020" retryTable).store.countP
        (fun r => r.id == "d" && r.last_modified == "2020")
      = retryTable.countP (fun r => r.id == "d" && r.last_modified == "2020")
    ∧ ∀ r ∈ (download_csv true "d" "u" "2020" retryTable).store,
        r.id = "d" → r.last_modified = "2020" →
        r.status = (if true then "completed" else "failed") :=
  failed_retry_in_place true "d" "u" "2020" retryTable (by decide)

/-- Witness for claim C6 at a concrete table satisfying the invariant. -/
theorem control_table_unique_key_witness :
    atMostOnePerKey (download_csv true "d" "u" "2024" staleTable).store
    ∧ atMostOnePerKey (run_worklist (fun _ _ _ => true) [("d", "u", "2024")] staleTable)
    ∧ ∀ r ∈ staleTable, ∃ r2 ∈ (download_csv true "d" "u" "2024" staleTable).store,
        r2.id = r.id ∧ r2.last_modified = r.last_modified :=
  control_table_unique_key true "d" "u" "2024" (fun _ _ _ => true) [("d", "u", "2024")]
    staleTable (by unfold atMostOnePerKey; decide)

/-- Witness for claim C7 at a concrete filtered record. -/
theorem planner_adds_iff_witness :
    (("d", "http://h/x.csv", "2024") ∈ get_download_list "hospital" [demoRecord] [])
      ↔ (get_latest_completed_download "d" ([] : ControlTable) = none
         ∨ ∃ v, get_latest_completed_download "d" ([] : ControlTable)
             = some (PyVal.ptup [v]) ∧ pyStrLt v "2024" = true) :=
  planner_adds_iff "hospital" [demoRecord] [] demoRecord (by decide)

/-- Witness for the amended claim C2 at a table with two completed rows. -/
theorem latest_completed_lookup_sound_witness :
    ∃ r ∈ ([⟨"d", "completed", "2023"⟩, ⟨"d", "completed", "2024"⟩] : ControlTable),
      r.id = "d" ∧ r.status = "completed" ∧ r.last_modified = "2023" :=
  (latest_completed_lookup_sound "d"
    [⟨"d", "completed", "2023"⟩, ⟨"d", "completed", "2024"⟩]).2 "2023" (by decide)

/-- Witness for the amended claim C3 at a concrete one-record feed. -/
theorem second_run_empty_witness :
    get_download_list "hospital" staleMetadata
      (download_all (fun _ _ _ => true) "hospital" staleMetadata []) = [] :=
  second_run_empty "hospital" staleMetadata (by decide)

end InsightGlobal
